import Mathlib

/-!
Verification of the `av` repository's two source files against its
natural-language specification.

The timing logic lives in `src/performance_test.py`; it is embedded below
with rational numbers standing for Python floats and with the program's
random draws passed in explicitly as a stream, so every property is stated
for every possible sequence of draws.  A Python statement that raises an
exception is embedded as `Option.none` (the statements in question raise
`ZeroDivisionError`; the repository defines no exception classes of its
own).

The metric computation called from `src/calculate_metrics_20250522_143244.py`
is implemented by the external sklearn library, which is not part of the
repository's sources; the definitions for it are modelled from the spec and
say so in their doc comments.
-/

namespace Av

/-! ## Embedding of `simulate_individual_analysis`
(`src/performance_test.py`, lines 14–31)

```python
total_time = 0
times = []
for i in range(num_apks):
    analysis_time = random.uniform(avg_time_per_apk * 0.7, avg_time_per_apk * 1.3)
    total_time += analysis_time
    times.append(total_time)
return total_time, times
```

`draws i` is the value returned by `random.uniform` on loop index `i`; the
contract of `random.uniform(a, b)` (its result lies in `[a, b]`) enters the
theorems as a hypothesis on `draws`. -/

/-- State of the individual-analysis loop after `k` iterations:
`(total_time, times)`. -/
def indivRun (draws : ℕ → ℚ) : ℕ → ℚ × List ℚ
  | 0 => (0, [])
  | k + 1 =>
    let s := indivRun draws k
    (s.1 + draws k, s.2 ++ [s.1 + draws k])

/-- `simulate_individual_analysis`: returns `(total_time, times)`. -/
def simulate_individual_analysis (num_apks : ℕ) (draws : ℕ → ℚ) : ℚ × List ℚ :=
  indivRun draws num_apks

/-! ## Embedding of `simulate_batch_analysis`
(`src/performance_test.py`, lines 33–59)

```python
total_time = 0
times = []
processed = 0
apks_per_iteration = batch_size * parallel_batches
iterations = (num_apks + apks_per_iteration - 1) // apks_per_iteration
for i in range(iterations):
    apks_in_this_iteration = min(apks_per_iteration, num_apks - processed)
    batch_time = avg_time_per_batch + random.uniform(-1, 1)
    total_time += batch_time
    processed += apks_in_this_iteration
    times.extend([total_time] * apks_in_this_iteration)
return total_time, times
```

`noise i` is the value returned by `random.uniform(-1, 1)` on loop index
`i`.  When `apks_per_iteration = 0`, Python's `//` raises
`ZeroDivisionError`; the embedding returns `none` there.  Counts are
naturals, so `num_apks - processed` is truncated subtraction, matching the
Python value because `processed` never exceeds `num_apks`. -/

/-- `iterations = (num_apks + apks_per_iteration - 1) // apks_per_iteration`. -/
def batchIterations (num_apks apks_per_iteration : ℕ) : ℕ :=
  (num_apks + apks_per_iteration - 1) / apks_per_iteration

/-- State of the batch-analysis loop after `k` iterations:
`(total_time, times, processed)`. -/
def batchRun (num_apks apks_per_iteration : ℕ) (avg_time_per_batch : ℚ)
    (noise : ℕ → ℚ) : ℕ → ℚ × List ℚ × ℕ
  | 0 => (0, [], 0)
  | k + 1 =>
    let s := batchRun num_apks apks_per_iteration avg_time_per_batch noise k
    let apks_in_this_iteration := min apks_per_iteration (num_apks - s.2.2)
    let total := s.1 + (avg_time_per_batch + noise k)
    (total, s.2.1 ++ List.replicate apks_in_this_iteration total,
      s.2.2 + apks_in_this_iteration)

/-- `simulate_batch_analysis`: returns `some (total_time, times)`, or `none`
for the `ZeroDivisionError` raised when `batch_size * parallel_batches = 0`.
The loop state is `batchRun` run for `batchIterations` iterations with
`apks_per_iteration = batch_size * parallel_batches`. -/
def simulate_batch_analysis (num_apks batch_size parallel_batches : ℕ)
    (avg_time_per_batch : ℚ) (noise : ℕ → ℚ) : Option (ℚ × List ℚ) :=
  if batch_size * parallel_batches = 0 then none
  else
    some ((batchRun num_apks (batch_size * parallel_batches) avg_time_per_batch noise
        (batchIterations num_apks (batch_size * parallel_batches))).1,
      (batchRun num_apks (batch_size * parallel_batches) avg_time_per_batch noise
        (batchIterations num_apks (batch_size * parallel_batches))).2.1)

/-! ## Embedding of the comparison arithmetic in `compare_performance`
(`src/performance_test.py`, lines 80–82)

```python
time_saved = individual_time - batch_time
speed_improvement = individual_time / batch_time
percentage_improvement = ((individual_time - batch_time) / individual_time) * 100
```

Python raises `ZeroDivisionError` on division by zero, so the embedding
returns `none` when `batch_time = 0` (line 81) and, failing that, when
`individual_time = 0` (line 82). -/

/-- The three derived statistics `(time_saved, speed_improvement,
percentage_improvement)` of `compare_performance`, or `none` for a
`ZeroDivisionError`. -/
def comparison_stats (individual_time batch_time : ℚ) : Option (ℚ × ℚ × ℚ) :=
  if batch_time = 0 then none
  else if individual_time = 0 then none
  else some (individual_time - batch_time, individual_time / batch_time,
    (individual_time - batch_time) / individual_time * 100)

/-! ## Embedding of `analyze_batch_configurations`
(`src/performance_test.py`, lines 135–174)

The function loops over a list of `(batch_size, parallel_batches)`
candidates, runs `simulate_batch_analysis(num_apks, ...)` once per
candidate, collects `(config, total_time)` rows, and selects
`min(config_results, key=lambda x: x['Total_Time'])`.  `noise i` is the
random stream consumed by the trial of the `i`-th candidate. -/

/-- Python's `min(xs, key=f)`: the fold keeps the current best and replaces
it only on a strictly smaller key, so the first minimum wins; `min` of an
empty list raises `ValueError`, embedded as `none`. -/
def pythonMin {α : Type} (f : α → ℚ) : List α → Option α
  | [] => none
  | x :: xs => some (xs.foldl (fun b y => if f y < f b then y else b) x)

/-- Total time of the batched trial that `analyze_batch_configurations` runs
for one candidate `c = (batch_size, parallel_batches)`. -/
def candidateTotal (num_apks : ℕ) (avg_time_per_batch : ℚ) (noisei : ℕ → ℚ)
    (c : ℕ × ℕ) : ℚ :=
  (batchRun num_apks (c.1 * c.2) avg_time_per_batch noisei
    (batchIterations num_apks (c.1 * c.2))).1

/-- The trial loop of `analyze_batch_configurations`: one
`simulate_batch_analysis` call per candidate, collecting
`(config, total_time)` rows in order; `i` is the index of the first
remaining candidate. -/
def runConfigTrials (num_apks : ℕ) (avg_time_per_batch : ℚ)
    (noise : ℕ → ℕ → ℚ) : ℕ → List (ℕ × ℕ) → Option (List ((ℕ × ℕ) × ℚ))
  | _, [] => some []
  | i, c :: cs =>
    match simulate_batch_analysis num_apks c.1 c.2 avg_time_per_batch (noise i) with
    | none => none
    | some (t, _) =>
      match runConfigTrials num_apks avg_time_per_batch noise (i + 1) cs with
      | none => none
      | some rest => some ((c, t) :: rest)

/-- `analyze_batch_configurations`: returns the collected
`config_results` rows and the selected `best_config` row. -/
def analyze_batch_configurations (num_apks : ℕ) (avg_time_per_batch : ℚ)
    (noise : ℕ → ℕ → ℚ) (configurations : List (ℕ × ℕ)) :
    Option (List ((ℕ × ℕ) × ℚ) × ((ℕ × ℕ) × ℚ)) :=
  match runConfigTrials num_apks avg_time_per_batch noise 0 configurations with
  | none => none
  | some config_results =>
    match pythonMin (fun r => r.2) config_results with
    | none => none
    | some best_config => some (config_results, best_config)

/-- The hard-coded candidate list of `analyze_batch_configurations`
(lines 140–146). -/
def defaultConfigurations : List (ℕ × ℕ) :=
  [(5, 1), (8, 2), (10, 2), (15, 3), (20, 1)]

/-! ## The metrics evaluator

`src/calculate_metrics_20250522_143244.py` extracts the columns
`GROUND_TRUTH_LABEL` and `PREDICTED_LABEL` and hands them to sklearn's
`accuracy_score`, `precision_score`, `recall_score`, `f1_score` and
`confusion_matrix` with `pos_label='MALWARE'` and label order
`['MALWARE', 'SAFE']`.  sklearn is not part of the repository's sources,
so the evaluator below is modelled from the spec (§4.1). -/

/-- The positive reference class; the strings are the reference labeling
scheme of the source (`pos_label='MALWARE'`). -/
def POSITIVE_CLASS : String := "MALWARE"

/-- The negative class (`'SAFE'` in the source's label ordering). -/
def NEGATIVE_CLASS : String := "SAFE"

/-- A label is admissible when it is one of the two recognized classes. -/
def admissibleLabel (l : String) : Bool :=
  l == POSITIVE_CLASS || l == NEGATIVE_CLASS

/-- Modelled from the spec: the error kinds of §7 raised by the metrics
evaluator; the evaluator itself lives in the external sklearn collaborator,
not under the repository's sources. -/
inductive MetricsError where
  | emptyInput
  | unknownLabel
deriving DecidableEq

/-- The 2×2 confusion matrix with rows and columns ordered
`[POSITIVE_CLASS, NEGATIVE_CLASS]`: row 1 is `(tp, fn)`, row 2 is
`(fp, tn)`. -/
structure ConfusionCounts where
  tp : ℕ
  fn : ℕ
  fp : ℕ
  tn : ℕ
deriving DecidableEq

/-- One counting step over a record `(ground_truth_label, predicted_label)`:
exact string equality against the two admissible labels decides the cell. -/
def tallyRecord (c : ConfusionCounts) (r : String × String) : ConfusionCounts :=
  if r.1 = POSITIVE_CLASS ∧ r.2 = POSITIVE_CLASS then { c with tp := c.tp + 1 }
  else if r.1 = POSITIVE_CLASS ∧ r.2 = NEGATIVE_CLASS then { c with fn := c.fn + 1 }
  else if r.1 = NEGATIVE_CLASS ∧ r.2 = POSITIVE_CLASS then { c with fp := c.fp + 1 }
  else if r.1 = NEGATIVE_CLASS ∧ r.2 = NEGATIVE_CLASS then { c with tn := c.tn + 1 }
  else c

/-- Modelled from the spec: the metric computation performed by the external
sklearn collaborator (the `accuracy_score`, `precision_score` and
`confusion_matrix` calls at lines 14–32 of the source file) is not part of
the repository's sources.  Per §4.1 and §7: an empty input is rejected with
`EmptyInputError`; a ground-truth or predicted label outside the two
admissible values is rejected with `UnknownLabelError`, never silently
ignored or reclassified; otherwise TP/FP/FN/TN are counted by exact
equality and `accuracy` is the matching-record fraction. -/
def evaluateRecords (records : List (String × String)) :
    Except MetricsError (ConfusionCounts × ℚ) :=
  if records.isEmpty then .error .emptyInput
  else if records.all (fun r => admissibleLabel r.1 && admissibleLabel r.2) then
    let c := records.foldl tallyRecord ⟨0, 0, 0, 0⟩
    .ok (c, ((c.tp + c.tn : ℕ) : ℚ) / records.length)
  else .error .unknownLabel

/-- The concrete record list of the spec's §8 scenario. -/
def demoRecords : List (String × String) :=
  [("MALWARE", "MALWARE"), ("MALWARE", "SAFE"), ("SAFE", "SAFE"), ("SAFE", "SAFE")]

/-- Exact-equality test for a true positive. -/
def isTP (r : String × String) : Bool :=
  r.1 == POSITIVE_CLASS && r.2 == POSITIVE_CLASS

/-- Exact-equality test for a false negative. -/
def isFN (r : String × String) : Bool :=
  r.1 == POSITIVE_CLASS && r.2 == NEGATIVE_CLASS

/-- Exact-equality test for a false positive. -/
def isFP (r : String × String) : Bool :=
  r.1 == NEGATIVE_CLASS && r.2 == POSITIVE_CLASS

/-- Exact-equality test for a true negative. -/
def isTN (r : String × String) : Bool :=
  r.1 == NEGATIVE_CLASS && r.2 == NEGATIVE_CLASS

/-! ## Helper lemmas: the individual-analysis loop -/

theorem indivRun_snd_length (draws : ℕ → ℚ) (k : ℕ) :
    (indivRun draws k).2.length = k := by
  induction k with
  | zero => rfl
  | succ k ih => simp [indivRun, ih]

theorem indivRun_total_eq_sum (draws : ℕ → ℚ) (k : ℕ) :
    (indivRun draws k).1 = ∑ i ∈ Finset.range k, draws i := by
  induction k with
  | zero => rfl
  | succ k ih => rw [Finset.sum_range_succ, ← ih]; rfl

/-- The `times` list is sorted and bounded by the running total as long as
every draw is non-negative. -/
theorem indivRun_sorted (draws : ℕ → ℚ) (h : ∀ i, 0 ≤ draws i) (k : ℕ) :
    List.Sorted (· ≤ ·) (indivRun draws k).2 ∧
      ∀ x ∈ (indivRun draws k).2, x ≤ (indivRun draws k).1 := by
  induction k with
  | zero => exact ⟨List.sorted_nil, by intro x hx; simp [indivRun] at hx⟩
  | succ k ih =>
    obtain ⟨hs, hb⟩ := ih
    have hstep : (indivRun draws k).1 ≤ (indivRun draws k).1 + draws k := by
      have := h k; linarith
    constructor
    · show List.Sorted (· ≤ ·) ((indivRun draws k).2 ++ [(indivRun draws k).1 + draws k])
      rw [List.Sorted, List.pairwise_append]
      refine ⟨hs, by simp, ?_⟩
      intro x hx y hy
      rw [List.mem_singleton] at hy
      subst hy
      exact le_trans (hb x hx) hstep
    · intro x hx
      show x ≤ (indivRun draws k).1 + draws k
      rcases List.mem_append.1 hx with hx | hx
      · exact le_trans (hb x hx) hstep
      · rw [List.mem_singleton] at hx
        subst hx
        rfl

/-- The last recorded completion time is the returned total. -/
theorem indivRun_getLast (draws : ℕ → ℚ) (k : ℕ) :
    (indivRun draws (k + 1)).2.getLast? = some (indivRun draws (k + 1)).1 :=
  List.getLast?_concat _

/-! ## Helper lemmas: the batch-analysis loop -/

/-- The running counter `processed` after `k` iterations is `min (k * u) n`. -/
theorem batchRun_processed (n u : ℕ) (avg : ℚ) (noise : ℕ → ℚ) (k : ℕ) :
    (batchRun n u avg noise k).2.2 = min (k * u) n := by
  induction k with
  | zero => simp [batchRun]
  | succ k ih =>
    show (batchRun n u avg noise k).2.2 +
        min u (n - (batchRun n u avg noise k).2.2) = min ((k + 1) * u) n
    rw [ih, add_one_mul]
    omega

theorem batchRun_times_length (n u : ℕ) (avg : ℚ) (noise : ℕ → ℚ) (k : ℕ) :
    (batchRun n u avg noise k).2.1.length = min (k * u) n := by
  induction k with
  | zero => simp [batchRun]
  | succ k ih =>
    show ((batchRun n u avg noise k).2.1 ++
        List.replicate (min u (n - (batchRun n u avg noise k).2.2)) _).length
        = min ((k + 1) * u) n
    rw [List.length_append, List.length_replicate, ih,
      batchRun_processed, add_one_mul]
    omega

/-- One loop iteration appends one copy of the new cumulative total per job
completed in that iteration, and completes `min u (n - i * u)` jobs. -/
theorem batchRun_step_times (n u : ℕ) (avg : ℚ) (noise : ℕ → ℚ) (i : ℕ) :
    (batchRun n u avg noise (i + 1)).2.1 =
      (batchRun n u avg noise i).2.1 ++
        List.replicate (min u (n - i * u)) ((batchRun n u avg noise (i + 1)).1) := by
  show (batchRun n u avg noise i).2.1 ++
      List.replicate (min u (n - (batchRun n u avg noise i).2.2))
        ((batchRun n u avg noise i).1 + (avg + noise i)) = _
  rw [batchRun_processed]
  have hmin : n - min (i * u) n = n - i * u := by omega
  rw [hmin]
  rfl

theorem lt_div_add_one_mul (a b : ℕ) (hb : 0 < b) : a < (a / b + 1) * b := by
  have h1 : b * (a / b) + a % b = a := Nat.div_add_mod a b
  have h2 : a % b < b := Nat.mod_lt a hb
  calc a = b * (a / b) + a % b := h1.symm
    _ < b * (a / b) + b := by omega
    _ = (a / b + 1) * b := by ring

/-- With a positive throughput unit, enough iterations are run to cover all
`n` jobs: `batchIterations n u * u ≥ n`. -/
theorem batchIterations_mul_ge (n u : ℕ) (hu : 0 < u) :
    n ≤ batchIterations n u * u := by
  have h := lt_div_add_one_mul (n + u - 1) u hu
  rw [add_mul, one_mul] at h
  unfold batchIterations
  omega

/-- One fewer iteration would not cover all `n ≥ 1` jobs:
`(batchIterations n u - 1) * u < n`. -/
theorem batchIterations_pred_mul_lt (n u : ℕ) (hn : 0 < n) :
    (batchIterations n u - 1) * u < n := by
  have h : batchIterations n u * u ≤ n + u - 1 := Nat.div_mul_le_self _ _
  rw [Nat.sub_mul, one_mul]
  omega

theorem batchIterations_pos (n u : ℕ) (hn : 0 < n) (hu : 0 < u) :
    0 < batchIterations n u := by
  have h := batchIterations_mul_ge n u hu
  rcases Nat.eq_zero_or_pos (batchIterations n u) with h0 | h0
  · rw [h0] at h
    omega
  · exact h0

/-- `batchIterations` is exactly the ceiling of `n / u`. -/
theorem batchIterations_eq_ceil (n u : ℕ) (hn : 0 < n) (hu : 0 < u) :
    batchIterations n u = ⌈(n : ℚ) / (u : ℚ)⌉₊ := by
  have hq := batchIterations_pos n u hn hu
  have h1 := batchIterations_mul_ge n u hu
  have h2 := batchIterations_pred_mul_lt n u hn
  have hu' : (0 : ℚ) < (u : ℚ) := by exact_mod_cast hu
  symm
  rw [Nat.ceil_eq_iff (by omega)]
  constructor
  · rw [lt_div_iff₀ hu']
    exact_mod_cast h2
  · rw [div_le_iff₀ hu']
    exact_mod_cast h1

theorem simulate_batch_analysis_eq (n b p : ℕ) (avg : ℚ) (noise : ℕ → ℚ)
    (hu : b * p ≠ 0) :
    simulate_batch_analysis n b p avg noise =
      some ((batchRun n (b * p) avg noise (batchIterations n (b * p))).1,
        (batchRun n (b * p) avg noise (batchIterations n (b * p))).2.1) := by
  unfold simulate_batch_analysis
  rw [if_neg hu]

theorem pairwise_le_replicate (m : ℕ) (x : ℚ) :
    List.Pairwise (· ≤ ·) (List.replicate m x) := by
  induction m with
  | zero => simp
  | succ m ih =>
    rw [List.replicate_succ]
    refine List.Pairwise.cons ?_ ih
    intro y hy
    rw [List.eq_of_mem_replicate hy]

/-- The batched `times` list is sorted and bounded by the running total as
long as every per-iteration duration `avg + noise i` is non-negative. -/
theorem batchRun_sorted (n u : ℕ) (avg : ℚ) (noise : ℕ → ℚ)
    (h : ∀ i, 0 ≤ avg + noise i) (k : ℕ) :
    List.Sorted (· ≤ ·) (batchRun n u avg noise k).2.1 ∧
      ∀ x ∈ (batchRun n u avg noise k).2.1, x ≤ (batchRun n u avg noise k).1 := by
  induction k with
  | zero => exact ⟨List.sorted_nil, by intro x hx; simp [batchRun] at hx⟩
  | succ k ih =>
    obtain ⟨hs, hb⟩ := ih
    have hstep : (batchRun n u avg noise k).1 ≤
        (batchRun n u avg noise k).1 + (avg + noise k) := by
      have := h k; linarith
    constructor
    · show List.Sorted (· ≤ ·) ((batchRun n u avg noise k).2.1 ++
        List.replicate (min u (n - (batchRun n u avg noise k).2.2))
          ((batchRun n u avg noise k).1 + (avg + noise k)))
      rw [List.Sorted, List.pairwise_append]
      refine ⟨hs, pairwise_le_replicate _ _, ?_⟩
      intro x hx y hy
      rw [List.eq_of_mem_replicate hy]
      exact le_trans (hb x hx) hstep
    · intro x hx
      show x ≤ (batchRun n u avg noise k).1 + (avg + noise k)
      rcases List.mem_append.1 hx with hx | hx
      · exact le_trans (hb x hx) hstep
      · rw [List.eq_of_mem_replicate hx]

theorem getLast?_append_replicate (l : List ℚ) (x : ℚ) (m : ℕ) (hm : m ≠ 0) :
    (l ++ List.replicate m x).getLast? = some x := by
  obtain ⟨m, rfl⟩ := Nat.exists_eq_succ_of_ne_zero hm
  rw [List.replicate_succ', ← List.append_assoc]
  exact List.getLast?_concat _

/-- For `n ≥ 1` and a positive throughput unit, the last recorded batched
completion time is the returned total. -/
theorem batchRun_getLast (n u : ℕ) (avg : ℚ) (noise : ℕ → ℚ)
    (hn : 0 < n) (hu : 0 < u) :
    (batchRun n u avg noise (batchIterations n u)).2.1.getLast? =
      some (batchRun n u avg noise (batchIterations n u)).1 := by
  have hit := batchIterations_pos n u hn hu
  obtain ⟨k, hk⟩ := Nat.exists_eq_succ_of_ne_zero hit.ne'
  have hlt : k * u < n := by
    have h2 := batchIterations_pred_mul_lt n u hn
    rw [hk] at h2
    simpa using h2
  rw [hk, batchRun_step_times]
  apply getLast?_append_replicate
  omega

/-! ## Helper lemmas: Python `min` with a key -/

theorem pythonFold_min {α : Type} (f : α → ℚ) (xs : List α) : ∀ x : α,
    f (xs.foldl (fun b y => if f y < f b then y else b) x) ≤ f x ∧
    ∀ y ∈ xs, f (xs.foldl (fun b y => if f y < f b then y else b) x) ≤ f y := by
  induction xs with
  | nil =>
    intro x
    exact ⟨le_refl _, by intro y hy; simp at hy⟩
  | cons y ys ih =>
    intro x
    rw [List.foldl_cons]
    by_cases hxy : f y < f x
    · rw [if_pos hxy]
      obtain ⟨h1, h2⟩ := ih y
      refine ⟨le_trans h1 (le_of_lt hxy), ?_⟩
      intro z hz
      rcases List.mem_cons.1 hz with rfl | hz
      · exact h1
      · exact h2 z hz
    · rw [if_neg hxy]
      obtain ⟨h1, h2⟩ := ih x
      push_neg at hxy
      refine ⟨h1, ?_⟩
      intro z hz
      rcases List.mem_cons.1 hz with rfl | hz
      · exact le_trans h1 hxy
      · exact h2 z hz

/-- The fold of Python's `min` either keeps the start value or lands on a
list element that is strictly below the start value and strictly below every
element before it (the first minimum wins). -/
theorem pythonFold_first {α : Type} (f : α → ℚ) (xs : List α) : ∀ x : α,
    xs.foldl (fun b y => if f y < f b then y else b) x = x ∨
    ∃ i : ℕ, ∃ hi : i < xs.length,
      xs.foldl (fun b y => if f y < f b then y else b) x = xs.get ⟨i, hi⟩ ∧
      f (xs.foldl (fun b y => if f y < f b then y else b) x) < f x ∧
      ∀ j : ℕ, ∀ hj : j < xs.length, j < i →
        f (xs.foldl (fun b y => if f y < f b then y else b) x) < f (xs.get ⟨j, hj⟩) := by
  induction xs with
  | nil =>
    intro x
    exact Or.inl rfl
  | cons y ys ih =>
    intro x
    rw [List.foldl_cons]
    by_cases hxy : f y < f x
    · rw [if_pos hxy]
      rcases ih y with h | ⟨i, hi, heq, hlt, hearl⟩
      · refine Or.inr ⟨0, by simp, ?_, ?_, ?_⟩
        · rw [h]; rfl
        · rw [h]; exact hxy
        · intro j hj hj0
          omega
      · refine Or.inr ⟨i + 1, by simp only [List.length_cons]; omega, ?_, ?_, ?_⟩
        · rw [heq]; rfl
        · exact lt_trans hlt hxy
        · intro j hj hji
          cases j with
          | zero => exact hlt
          | succ k =>
            exact hearl k (by simp only [List.length_cons] at hj; omega) (by omega)
    · rw [if_neg hxy]
      push_neg at hxy
      rcases ih x with h | ⟨i, hi, heq, hlt, hearl⟩
      · exact Or.inl h
      · refine Or.inr ⟨i + 1, by simp only [List.length_cons]; omega, ?_, ?_, ?_⟩
        · rw [heq]; rfl
        · exact hlt
        · intro j hj hji
          cases j with
          | zero => exact lt_of_lt_of_le hlt hxy
          | succ k =>
            exact hearl k (by simp only [List.length_cons] at hj; omega) (by omega)

/-- Specification of Python's `min(xs, key=f)` on a non-empty list: it
returns an element whose key is minimal, and every element strictly before
it has a strictly larger key (ties resolve to the earliest element). -/
theorem pythonMin_spec {α : Type} (f : α → ℚ) (l : List α) (hl : l ≠ []) :
    ∃ a, pythonMin f l = some a ∧
      ∃ i : ℕ, ∃ hi : i < l.length, l.get ⟨i, hi⟩ = a ∧
        (∀ j : ℕ, ∀ hj : j < l.length, f a ≤ f (l.get ⟨j, hj⟩)) ∧
        (∀ j : ℕ, ∀ hj : j < l.length, j < i → f a < f (l.get ⟨j, hj⟩)) := by
  match l, hl with
  | x :: xs, _ =>
    refine ⟨xs.foldl (fun b y => if f y < f b then y else b) x, rfl, ?_⟩
    obtain ⟨hmx, hmall⟩ := pythonFold_min f xs x
    have hminall : ∀ j : ℕ, ∀ hj : j < (x :: xs).length,
        f (xs.foldl (fun b y => if f y < f b then y else b) x) ≤
          f ((x :: xs).get ⟨j, hj⟩) := by
      intro j hj
      cases j with
      | zero => exact hmx
      | succ k =>
        exact hmall _ (List.get_mem xs k (by simp only [List.length_cons] at hj; omega))
    rcases pythonFold_first f xs x with h | ⟨i, hi, heq, hlt, hearl⟩
    · refine ⟨0, by simp, by rw [h]; rfl, hminall, ?_⟩
      intro j hj hj0
      omega
    · refine ⟨i + 1, by simp only [List.length_cons]; omega, heq.symm, hminall, ?_⟩
      intro j hj hji
      cases j with
      | zero => exact hlt
      | succ k =>
        exact hearl k (by simp only [List.length_cons] at hj; omega) (by omega)

/-- With every candidate geometrically valid, the trial loop of
`analyze_batch_configurations` produces exactly one `(config, total_time)`
row per candidate, in order, whose total is that candidate's own batched
trial total. -/
theorem runConfigTrials_eq (n : ℕ) (avg : ℚ) (noise : ℕ → ℕ → ℚ)
    (cs : List (ℕ × ℕ)) : ∀ i, (∀ c ∈ cs, c.1 * c.2 ≠ 0) →
    runConfigTrials n avg noise i cs =
      some ((cs.enumFrom i).map
        (fun jc => (jc.2, candidateTotal n avg (noise jc.1) jc.2))) := by
  induction cs with
  | nil =>
    intro i _
    rfl
  | cons c cs ih =>
    intro i h
    have hc : c.1 * c.2 ≠ 0 := h c (List.mem_cons_self c cs)
    rw [runConfigTrials, simulate_batch_analysis_eq n c.1 c.2 avg (noise i) hc,
      ih (i + 1) (fun d hd => h d (List.mem_cons_of_mem c hd))]
    rfl

/-! ## Helper lemmas: the metrics evaluator -/

/-- One tally step increments exactly the cell selected by exact equality
against the two admissible labels. -/
theorem tallyRecord_fields (c : ConfusionCounts) (r : String × String) :
    (tallyRecord c r).tp = c.tp + (if isTP r then 1 else 0) ∧
    (tallyRecord c r).fn = c.fn + (if isFN r then 1 else 0) ∧
    (tallyRecord c r).fp = c.fp + (if isFP r then 1 else 0) ∧
    (tallyRecord c r).tn = c.tn + (if isTN r then 1 else 0) := by
  unfold tallyRecord isTP isFN isFP isTN
  have hPN : POSITIVE_CLASS ≠ NEGATIVE_CLASS := by decide
  split_ifs with h1 h2 h3 h4 <;>
    simp_all [beq_iff_eq]

/-- Folding `tallyRecord` counts each cell by `countP` over its
exact-equality predicate. -/
theorem foldl_tally (records : List (String × String)) : ∀ init : ConfusionCounts,
    (records.foldl tallyRecord init).tp = init.tp + records.countP isTP ∧
    (records.foldl tallyRecord init).fn = init.fn + records.countP isFN ∧
    (records.foldl tallyRecord init).fp = init.fp + records.countP isFP ∧
    (records.foldl tallyRecord init).tn = init.tn + records.countP isTN := by
  induction records with
  | nil =>
    intro init
    simp
  | cons r rs ih =>
    intro init
    obtain ⟨f1, f2, f3, f4⟩ := tallyRecord_fields init r
    obtain ⟨h1, h2, h3, h4⟩ := ih (tallyRecord init r)
    rw [List.foldl_cons]
    refine ⟨?_, ?_, ?_, ?_⟩
    · rw [h1, f1, List.countP_cons]
      omega
    · rw [h2, f2, List.countP_cons]
      omega
    · rw [h3, f3, List.countP_cons]
      omega
    · rw [h4, f4, List.countP_cons]
      omega

/-- For a record whose two labels are admissible, exactly one of the four
cell predicates holds. -/
theorem admissible_cases (r : String × String)
    (h1 : admissibleLabel r.1 = true) (h2 : admissibleLabel r.2 = true) :
    (if isTP r then 1 else 0) + (if isFN r then 1 else 0) +
      (if isFP r then 1 else 0) + (if isTN r then 1 else 0) = 1 := by
  unfold admissibleLabel at h1 h2
  unfold isTP isFN isFP isTN
  have hPN : (POSITIVE_CLASS == NEGATIVE_CLASS) = false := by decide
  rcases Bool.or_eq_true_iff.1 h1 with ha | ha <;>
    rcases Bool.or_eq_true_iff.1 h2 with hb | hb <;>
      rw [beq_iff_eq] at ha hb <;>
        simp [ha, hb, beq_iff_eq, POSITIVE_CLASS, NEGATIVE_CLASS]

/-- Over an all-admissible record list, the four cells sum to the record
count. -/
theorem countP_cells_sum (records : List (String × String))
    (hadm : ∀ r ∈ records, admissibleLabel r.1 = true ∧ admissibleLabel r.2 = true) :
    records.countP isTP + records.countP isFN +
      records.countP isFP + records.countP isTN = records.length := by
  induction records with
  | nil => simp
  | cons r rs ih =>
    have hr := hadm r (List.mem_cons_self r rs)
    have hone := admissible_cases r hr.1 hr.2
    have hrest := ih (fun d hd => hadm d (List.mem_cons_of_mem r hd))
    simp only [List.countP_cons, List.length_cons]
    omega

/-! ## Claim theorems -/

/-- C10: with `job_count = 0`, both `simulate_individual_analysis` and
`simulate_batch_analysis` perform zero loop iterations and return total
time `0` and an empty completion-times list, raising no error (the batched
simulator's only failure, the zero-throughput `ZeroDivisionError`, needs
`batch_size * parallel_batches = 0`). -/
theorem C10_zero_job_count (b p : ℕ) (avg : ℚ) (draws noise : ℕ → ℚ)
    (hbp : 0 < b * p) :
    simulate_individual_analysis 0 draws = (0, []) ∧
    simulate_batch_analysis 0 b p avg noise = some (0, []) := by
  refine ⟨rfl, ?_⟩
  have h0 : batchIterations 0 (b * p) = 0 := by
    unfold batchIterations
    apply Nat.div_eq_of_lt
    omega
  rw [simulate_batch_analysis_eq 0 b p avg noise hbp.ne', h0]
  rfl

theorem C10_witness :
    simulate_individual_analysis 0 (fun _ => 4) = (0, []) ∧
    simulate_batch_analysis 0 8 2 5 (fun _ => 0) = some (0, []) :=
  C10_zero_job_count 8 2 5 (fun _ => 4) (fun _ => 0) (by norm_num)

/-- C9: for every job count `n` and every draw stream bounded in
`[0.7·t, 1.3·t]` — the contract of `random.uniform(t*0.7, t*1.3)` — the
individual-analysis total lies in `[0.7·t·n, 1.3·t·n]`. -/
theorem C9_individual_total_bounds (n : ℕ) (t : ℚ) (draws : ℕ → ℚ)
    (hlo : ∀ i, 7/10 * t ≤ draws i) (hhi : ∀ i, draws i ≤ 13/10 * t) :
    7/10 * t * n ≤ (simulate_individual_analysis n draws).1 ∧
    (simulate_individual_analysis n draws).1 ≤ 13/10 * t * n := by
  unfold simulate_individual_analysis
  rw [indivRun_total_eq_sum]
  constructor
  · have h : ∑ _i ∈ Finset.range n, (7/10 * t) ≤ ∑ i ∈ Finset.range n, draws i :=
      Finset.sum_le_sum fun i _ => hlo i
    rw [Finset.sum_const, Finset.card_range, nsmul_eq_mul] at h
    have he : (7 : ℚ)/10 * t * n = n * (7/10 * t) := by ring
    rw [he]
    exact h
  · have h : ∑ i ∈ Finset.range n, draws i ≤ ∑ _i ∈ Finset.range n, (13/10 * t) :=
      Finset.sum_le_sum fun i _ => hhi i
    rw [Finset.sum_const, Finset.card_range, nsmul_eq_mul] at h
    have he : (13 : ℚ)/10 * t * n = n * (13/10 * t) := by ring
    rw [he]
    exact h

theorem C9_witness :
    7/10 * 4 * ((3 : ℕ) : ℚ) ≤ (simulate_individual_analysis 3 (fun _ => 4)).1 ∧
    (simulate_individual_analysis 3 (fun _ => 4)).1 ≤ 13/10 * 4 * ((3 : ℕ) : ℚ) :=
  C9_individual_total_bounds 3 4 (fun _ => 4)
    (fun _ => by norm_num) (fun _ => by norm_num)

/-- C8: for `job_count ≥ 1` (and a geometrically valid batch
configuration), the scalar `total_time` returned by each simulator equals
the last entry of its `completion_times` list. -/
theorem C8_total_eq_last (n b p : ℕ) (avg : ℚ) (draws noise : ℕ → ℚ)
    (hn : 1 ≤ n) (hb : 1 ≤ b) (hp : 1 ≤ p) :
    (simulate_individual_analysis n draws).2.getLast? =
      some (simulate_individual_analysis n draws).1 ∧
    ∃ total times, simulate_batch_analysis n b p avg noise = some (total, times) ∧
      times.getLast? = some total := by
  have hu : 0 < b * p := Nat.mul_pos hb hp
  constructor
  · obtain ⟨k, hk⟩ := Nat.exists_eq_succ_of_ne_zero (by omega : n ≠ 0)
    subst hk
    exact indivRun_getLast draws k
  · exact ⟨_, _, simulate_batch_analysis_eq n b p avg noise hu.ne',
      batchRun_getLast n (b * p) avg noise (by omega) hu⟩

theorem C8_witness :
    (simulate_individual_analysis 1 (fun _ => 4)).2.getLast? =
      some (simulate_individual_analysis 1 (fun _ => 4)).1 ∧
    ∃ total times, simulate_batch_analysis 1 1 1 5 (fun _ => 0) = some (total, times) ∧
      times.getLast? = some total :=
  C8_total_eq_last 1 1 1 5 (fun _ => 4) (fun _ => 0)
    (by norm_num) (by norm_num) (by norm_num)

/-- C5: the comparison derives `time_saved = individual − batched`,
`speed_improvement = individual / batched` and
`percentage_improvement = 100 · time_saved / individual`, and it fails
(the division raises; the spec names this failure `DegenerateTimingError`)
whenever the batched total equals `0`. -/
theorem C5_comparison_formulas (individual_time batch_time : ℚ) :
    (batch_time = 0 → comparison_stats individual_time batch_time = none) ∧
    (batch_time ≠ 0 → individual_time ≠ 0 →
      comparison_stats individual_time batch_time =
        some (individual_time - batch_time, individual_time / batch_time,
          100 * (individual_time - batch_time) / individual_time)) := by
  constructor
  · intro h
    unfold comparison_stats
    rw [if_pos h]
  · intro hb hi
    unfold comparison_stats
    rw [if_neg hb, if_neg hi]
    have h : (individual_time - batch_time) / individual_time * 100 =
        100 * (individual_time - batch_time) / individual_time := by
      ring
    rw [h]

theorem C5_witness :
    comparison_stats 10 0 = none ∧
    comparison_stats 10 4 = some (10 - 4, 10 / 4, 100 * (10 - 4) / 10) :=
  ⟨(C5_comparison_formulas 10 0).1 rfl,
   (C5_comparison_formulas 10 4).2 (by norm_num) (by norm_num)⟩

/-- C4 counterexample: called with the non-positive average-time parameter
`avg_time_per_batch = -5`, or with `job_count = 0`, the simulator raises
nothing and returns a complete result, so the claimed `InvalidConfigError`
validation does not exist in the code. -/
theorem C4_counterexample :
    simulate_batch_analysis 10 8 2 (-5) (fun _ => 0) =
      some (-5, List.replicate 10 (-5)) ∧
    simulate_batch_analysis 0 8 2 5 (fun _ => 0) = some (0, []) := by
  constructor
  · have h1 : batchIterations 10 (8 * 2) = 1 := by norm_num [batchIterations]
    rw [simulate_batch_analysis_eq 10 8 2 (-5) (fun _ => 0) (by norm_num), h1]
    norm_num [batchRun]
  · have h0 : batchIterations 0 (8 * 2) = 0 := by norm_num [batchIterations]
    rw [simulate_batch_analysis_eq 0 8 2 5 (fun _ => 0) (by norm_num), h0]
    rfl

/-- C4 (amended): `simulate_batch_analysis` performs no input validation
and raises no `InvalidConfigError`: when `batch_size * parallel_batches`
is zero it fails with a `ZeroDivisionError` at the iteration computation,
and in every other case — including `job_count = 0` and negative
average-time parameters — it returns a result without any error. -/
theorem C4_no_validation (n b p : ℕ) (avg : ℚ) (noise : ℕ → ℚ) :
    (b * p = 0 → simulate_batch_analysis n b p avg noise = none) ∧
    (b * p ≠ 0 → (simulate_batch_analysis n b p avg noise).isSome = true) := by
  constructor
  · intro h
    unfold simulate_batch_analysis
    rw [if_pos h]
  · intro h
    rw [simulate_batch_analysis_eq n b p avg noise h]
    rfl

theorem C4_witness :
    simulate_batch_analysis 10 0 2 5 (fun _ => 0) = none ∧
    (simulate_batch_analysis 10 8 2 (-5) (fun _ => 0)).isSome = true :=
  ⟨(C4_no_validation 10 0 2 5 (fun _ => 0)).1 rfl,
   (C4_no_validation 10 8 2 (-5) (fun _ => 0)).2 (by norm_num)⟩

/-- C3 counterexample: with the positive timing parameter
`avg_time_per_batch = 1/2` and a draw stream legal for
`random.uniform(-1, 1)` (first draw `0`, later draws `-1`), the batched
completion-times list for 17 jobs under config `8 × 2` is sixteen copies
of `1/2` followed by `0`, which is not non-decreasing — refuting the claim
that positive timing parameters alone force a non-decreasing list. -/
theorem C3_counterexample :
    (0 : ℚ) < 1/2 ∧
    simulate_batch_analysis 17 8 2 (1/2) (fun k => if k = 0 then 0 else -1) =
      some (0, List.replicate 16 (1/2) ++ [0]) ∧
    ¬ List.Sorted (· ≤ ·) (List.replicate 16 ((1 : ℚ)/2) ++ [0]) := by
  refine ⟨by norm_num, ?_, ?_⟩
  · have h2 : batchIterations 17 (8 * 2) = 2 := by norm_num [batchIterations]
    rw [simulate_batch_analysis_eq 17 8 2 (1/2) (fun k => if k = 0 then 0 else -1)
      (by norm_num), h2]
    norm_num [batchRun]
  intro hs
  have hp : List.Pairwise (· ≤ ·) (List.replicate 16 ((1 : ℚ)/2) ++ [0]) := hs
  rw [List.pairwise_append] at hp
  have h12 := hp.2.2 (1/2) (by simp [List.mem_replicate]) 0 (by simp)
  norm_num at h12

/-- C3 (amended): for `job_count = n ≥ 1` and positive timing parameters,
both modes return exactly `n` completion times and the INDIVIDUAL list is
always non-decreasing; the BATCHED list is non-decreasing provided
additionally `avg_time_per_batch ≥ 1`, so that no per-iteration duration
`avg_time_per_batch + uniform(-1, 1)` can be negative (with a positive
`avg_time_per_batch < 1` the list can decrease). -/
theorem C3_length_and_monotone (n b p : ℕ) (t avg : ℚ) (draws noise : ℕ → ℚ)
    (_hn : 1 ≤ n) (hb : 1 ≤ b) (hp : 1 ≤ p) (ht : 0 < t) (_havg : 0 < avg)
    (hdraws : ∀ i, 7/10 * t ≤ draws i) (hnoise : ∀ i, -1 ≤ noise i) :
    ((simulate_individual_analysis n draws).2.length = n ∧
      List.Sorted (· ≤ ·) (simulate_individual_analysis n draws).2) ∧
    (∃ total times, simulate_batch_analysis n b p avg noise = some (total, times) ∧
      times.length = n ∧ (1 ≤ avg → List.Sorted (· ≤ ·) times)) := by
  have hu : 0 < b * p := Nat.mul_pos hb hp
  have hdraw0 : ∀ i, 0 ≤ draws i := fun i =>
    le_trans (by positivity) (hdraws i)
  refine ⟨⟨indivRun_snd_length draws n, (indivRun_sorted draws hdraw0 n).1⟩, ?_⟩
  refine ⟨_, _, simulate_batch_analysis_eq n b p avg noise hu.ne', ?_, ?_⟩
  · rw [batchRun_times_length]
    have := batchIterations_mul_ge n (b * p) hu
    omega
  · intro havg
    have hdur : ∀ i, 0 ≤ avg + noise i := fun i => by
      have := hnoise i
      linarith
    exact (batchRun_sorted n (b * p) avg noise hdur _).1

theorem C3_witness :
    ((simulate_individual_analysis 17 (fun _ => 4)).2.length = 17 ∧
      List.Sorted (· ≤ ·) (simulate_individual_analysis 17 (fun _ => 4)).2) ∧
    (∃ total times,
      simulate_batch_analysis 17 8 2 5 (fun _ => 0) = some (total, times) ∧
      times.length = 17 ∧ ((1 : ℚ) ≤ 5 → List.Sorted (· ≤ ·) times)) :=
  C3_length_and_monotone 17 8 2 4 5 (fun _ => 4) (fun _ => 0)
    (by norm_num) (by norm_num) (by norm_num) (by norm_num) (by norm_num)
    (fun _ => by norm_num) (fun _ => by norm_num)

/-- C1: in BATCHED mode with `n ≥ 1` jobs and positive `batch_size` and
`parallel_batches`, the throughput unit is `batch_size * parallel_batches`,
the loop runs exactly `⌈n / throughput_unit⌉` iterations, each iteration
appends one identical cumulative timestamp per job it completes, each
iteration completes `min (throughput_unit, jobs remaining)` jobs (the jobs
remaining before iteration `i` being `n - i·throughput_unit`), and exactly
`n` jobs are recorded in total, never more. -/
theorem C1_batched_mode (n b p : ℕ) (avg : ℚ) (noise : ℕ → ℚ)
    (hn : 1 ≤ n) (hb : 1 ≤ b) (hp : 1 ≤ p) :
    batchIterations n (b * p) = ⌈(n : ℚ) / ((b * p : ℕ) : ℚ)⌉₊ ∧
    (∃ total times, simulate_batch_analysis n b p avg noise = some (total, times) ∧
      times.length = n) ∧
    (∀ k, (batchRun n (b * p) avg noise k).2.2 = min (k * (b * p)) n) ∧
    (∀ i, (batchRun n (b * p) avg noise (i + 1)).2.1 =
      (batchRun n (b * p) avg noise i).2.1 ++
        List.replicate (min (b * p) (n - i * (b * p)))
          ((batchRun n (b * p) avg noise (i + 1)).1)) := by
  have hu : 0 < b * p := Nat.mul_pos hb hp
  refine ⟨batchIterations_eq_ceil n (b * p) (by omega) hu, ?_,
    fun k => batchRun_processed n (b * p) avg noise k,
    fun i => batchRun_step_times n (b * p) avg noise i⟩
  refine ⟨_, _, simulate_batch_analysis_eq n b p avg noise hu.ne', ?_⟩
  rw [batchRun_times_length]
  have := batchIterations_mul_ge n (b * p) hu
  omega

theorem C1_witness :
    (batchIterations 17 (8 * 2) = ⌈(17 : ℚ) / (((8 * 2 : ℕ)) : ℚ)⌉₊ ∧
      (∃ total times,
        simulate_batch_analysis 17 8 2 5 (fun _ => 0) = some (total, times) ∧
        times.length = 17) ∧
      (∀ k, (batchRun 17 (8 * 2) 5 (fun _ => 0) k).2.2 = min (k * (8 * 2)) 17) ∧
      (∀ i, (batchRun 17 (8 * 2) 5 (fun _ => 0) (i + 1)).2.1 =
        (batchRun 17 (8 * 2) 5 (fun _ => 0) i).2.1 ++
          List.replicate (min (8 * 2) (17 - i * (8 * 2)))
            ((batchRun 17 (8 * 2) 5 (fun _ => 0) (i + 1)).1))) ∧
    batchIterations 17 (8 * 2) = 2 ∧
    min (8 * 2) (17 - 0 * (8 * 2)) = 16 ∧
    min (8 * 2) (17 - 1 * (8 * 2)) = 1 :=
  ⟨C1_batched_mode 17 8 2 5 (fun _ => 0) (by norm_num) (by norm_num) (by norm_num),
   by norm_num [batchIterations], by norm_num, by norm_num⟩

/-- C6: for a non-empty ordered candidate list, the configuration search
runs one batched trial per candidate, in the supplied order, and selects
the earliest candidate whose trial total is minimal: the selected row's
total is `≤` every row's total, and every row strictly before the selected
one has a strictly larger total. -/
theorem C6_config_search (n : ℕ) (avg : ℚ) (noise : ℕ → ℕ → ℚ)
    (cs : List (ℕ × ℕ)) (hne : cs ≠ [])
    (hpos : ∀ c ∈ cs, 0 < c.1 * c.2) :
    ∃ results best,
      analyze_batch_configurations n avg noise cs = some (results, best) ∧
      results = (cs.enumFrom 0).map
        (fun jc => (jc.2, candidateTotal n avg (noise jc.1) jc.2)) ∧
      ∃ i : ℕ, ∃ hi : i < results.length, results.get ⟨i, hi⟩ = best ∧
        (∀ j : ℕ, ∀ hj : j < results.length, best.2 ≤ (results.get ⟨j, hj⟩).2) ∧
        (∀ j : ℕ, ∀ hj : j < results.length, j < i →
          best.2 < (results.get ⟨j, hj⟩).2) := by
  have hrt := runConfigTrials_eq n avg noise cs 0 (fun c hc => (hpos c hc).ne')
  have hresne : (cs.enumFrom 0).map
      (fun jc => (jc.2, candidateTotal n avg (noise jc.1) jc.2)) ≠ [] := by
    intro h
    apply hne
    have hlen := congrArg List.length h
    rw [List.length_map, List.enumFrom_length] at hlen
    exact List.length_eq_zero.mp hlen
  obtain ⟨best, hbest, i, hi, hgi, hmin, hearl⟩ :=
    pythonMin_spec (fun r => r.2)
      ((cs.enumFrom 0).map (fun jc => (jc.2, candidateTotal n avg (noise jc.1) jc.2)))
      hresne
  refine ⟨_, best, ?_, rfl, i, hi, hgi, hmin, hearl⟩
  unfold analyze_batch_configurations
  rw [hrt]
  simp [hbest]

theorem C6_witness :
    ∃ results best,
      analyze_batch_configurations 100 5 (fun _ _ => 0) defaultConfigurations =
        some (results, best) ∧
      results = (defaultConfigurations.enumFrom 0).map
        (fun jc => (jc.2, candidateTotal 100 5 ((fun _ _ => (0 : ℚ)) jc.1) jc.2)) ∧
      ∃ i : ℕ, ∃ hi : i < results.length, results.get ⟨i, hi⟩ = best ∧
        (∀ j : ℕ, ∀ hj : j < results.length, best.2 ≤ (results.get ⟨j, hj⟩).2) ∧
        (∀ j : ℕ, ∀ hj : j < results.length, j < i →
          best.2 < (results.get ⟨j, hj⟩).2) :=
  C6_config_search 100 5 (fun _ _ => 0) defaultConfigurations
    (by decide) (by decide)

/-- C2: any record whose ground-truth or predicted label is neither
`POSITIVE_CLASS` nor `NEGATIVE_CLASS` makes the evaluation fail with
`UnknownLabelError` rather than being silently ignored or reclassified;
on admissible inputs the four confusion cells TP/FN/FP/TN are counted
purely by exact equality against the two admissible labels. -/
theorem C2_unknown_label_rejected (records : List (String × String)) :
    ((∃ r ∈ records, admissibleLabel r.1 = false ∨ admissibleLabel r.2 = false) →
      evaluateRecords records = .error .unknownLabel) ∧
    (records ≠ [] →
      (∀ r ∈ records, admissibleLabel r.1 = true ∧ admissibleLabel r.2 = true) →
      ∃ c acc, evaluateRecords records = .ok (c, acc) ∧
        c.tp = records.countP isTP ∧ c.fn = records.countP isFN ∧
        c.fp = records.countP isFP ∧ c.tn = records.countP isTN) := by
  constructor
  · rintro ⟨r, hr, hbad⟩
    have hemp : ¬ (records.isEmpty = true) := by
      cases records with
      | nil => simp at hr
      | cons a l => simp
    have hall : ¬ (records.all
        (fun r => admissibleLabel r.1 && admissibleLabel r.2) = true) := by
      rw [List.all_eq_true]
      push_neg
      refine ⟨r, hr, ?_⟩
      rcases hbad with h | h <;> simp [h]
    unfold evaluateRecords
    rw [if_neg hemp, if_neg hall]
  · intro hne hadm
    have hemp : ¬ (records.isEmpty = true) := by
      cases records with
      | nil => exact absurd rfl hne
      | cons a l => simp
    have hall : records.all
        (fun r => admissibleLabel r.1 && admissibleLabel r.2) = true := by
      rw [List.all_eq_true]
      intro r hr
      have h := hadm r hr
      simp [h.1, h.2]
    obtain ⟨t1, t2, t3, t4⟩ := foldl_tally records ⟨0, 0, 0, 0⟩
    simp only [Nat.zero_add] at t1 t2 t3 t4
    refine ⟨records.foldl tallyRecord ⟨0, 0, 0, 0⟩,
      (((records.foldl tallyRecord ⟨0, 0, 0, 0⟩).tp +
        (records.foldl tallyRecord ⟨0, 0, 0, 0⟩).tn : ℕ) : ℚ) / records.length,
      ?_, t1, t2, t3, t4⟩
    unfold evaluateRecords
    rw [if_neg hemp, if_pos hall]

theorem C2_witness :
    evaluateRecords [("MALWARE", "OTHER"), ("SAFE", "SAFE")] =
      .error .unknownLabel ∧
    (∃ c acc, evaluateRecords demoRecords = .ok (c, acc) ∧
      c.tp = demoRecords.countP isTP ∧ c.fn = demoRecords.countP isFN ∧
      c.fp = demoRecords.countP isFP ∧ c.tn = demoRecords.countP isTN) :=
  ⟨(C2_unknown_label_rejected [("MALWARE", "OTHER"), ("SAFE", "SAFE")]).1
      ⟨("MALWARE", "OTHER"), by simp, by right; decide⟩,
   (C2_unknown_label_rejected demoRecords).2 (by decide) (by decide)⟩

/-- C7: on a non-empty sequence of records with admissible labels, the
computed accuracy lies in `[0, 1]` and the four confusion-matrix cells
(rows and columns ordered `[POSITIVE_CLASS, NEGATIVE_CLASS]`) are
non-negative naturals that sum exactly to the record count. -/
theorem C7_accuracy_and_cells (records : List (String × String))
    (hne : records ≠ [])
    (hadm : ∀ r ∈ records, admissibleLabel r.1 = true ∧ admissibleLabel r.2 = true) :
    ∃ c acc, evaluateRecords records = .ok (c, acc) ∧
      0 ≤ acc ∧ acc ≤ 1 ∧ c.tp + c.fn + c.fp + c.tn = records.length := by
  have hemp : ¬ (records.isEmpty = true) := by
    cases records with
    | nil => exact absurd rfl hne
    | cons a l => simp
  have hall : records.all
      (fun r => admissibleLabel r.1 && admissibleLabel r.2) = true := by
    rw [List.all_eq_true]
    intro r hr
    have h := hadm r hr
    simp [h.1, h.2]
  obtain ⟨t1, t2, t3, t4⟩ := foldl_tally records ⟨0, 0, 0, 0⟩
  simp only [Nat.zero_add] at t1 t2 t3 t4
  have hsum : (records.foldl tallyRecord ⟨0, 0, 0, 0⟩).tp +
      (records.foldl tallyRecord ⟨0, 0, 0, 0⟩).fn +
      (records.foldl tallyRecord ⟨0, 0, 0, 0⟩).fp +
      (records.foldl tallyRecord ⟨0, 0, 0, 0⟩).tn = records.length := by
    rw [t1, t2, t3, t4]
    exact countP_cells_sum records hadm
  have hlen : 0 < records.length := List.length_pos.mpr hne
  refine ⟨records.foldl tallyRecord ⟨0, 0, 0, 0⟩,
    (((records.foldl tallyRecord ⟨0, 0, 0, 0⟩).tp +
      (records.foldl tallyRecord ⟨0, 0, 0, 0⟩).tn : ℕ) : ℚ) / records.length,
    ?_, ?_, ?_, hsum⟩
  · unfold evaluateRecords
    rw [if_neg hemp, if_pos hall]
  · exact div_nonneg (by positivity) (by positivity)
  · rw [div_le_one (by exact_mod_cast hlen)]
    have hle : (records.foldl tallyRecord ⟨0, 0, 0, 0⟩).tp +
        (records.foldl tallyRecord ⟨0, 0, 0, 0⟩).tn ≤ records.length := by
      omega
    exact_mod_cast hle

theorem C7_witness :
    ∃ c acc, evaluateRecords demoRecords = .ok (c, acc) ∧
      0 ≤ acc ∧ acc ≤ 1 ∧ c.tp + c.fn + c.fp + c.tn = demoRecords.length :=
  C7_accuracy_and_cells demoRecords (by decide) (by decide)
